import Mathlib

/-
Shallow embedding of src/src/data_generation.py: the three missingness
mechanisms mcar, mar and nmar over a dataframe of named, typed columns.

Numeric cell values and probabilities are modelled by the type Fl, a real
number extended with the IEEE special values inf, -inf and nan, because the
source works with numpy floats: division by a zero standard deviation does
not raise but produces nan, and nan propagates through the sigmoid and the
probability products.  Comparisons against nan are false, as in IEEE.

Randomness is modelled by a stream g : Nat -> Real consumed left to right:
a call to np.random.normal() reads the next stream element as the normal
variate, and a call to np.random.choice([1, 0], p = [q, 1 - q]) first
validates its p-vector — a nan entry (a nan trial probability q makes both
entries nan) raises ValueError "probabilities contain NaN", a negative
entry raises ValueError "probabilities are not non-negative" — and only
then reads the next stream element u (a uniform draw in [0, 1)) and
returns 1 exactly when u < q, which is the inverse-cdf sampling numpy
performs.  np.mean and np.std applied to a pandas Series delegate to the
Series methods, which skip nan values (skipna) and use ddof 0.
-/

noncomputable section

open scoped Classical

namespace MissGen

/-- A numpy floating point value: a finite real, an infinity, or nan. -/
inductive Fl where
  | finite (x : ℝ)
  | inf
  | ninf
  | nan

/-- IEEE negation. -/
def fneg : Fl → Fl
  | Fl.finite x => Fl.finite (-x)
  | Fl.inf => Fl.ninf
  | Fl.ninf => Fl.inf
  | Fl.nan => Fl.nan

/-- IEEE addition; inf - inf and any operation on nan give nan. -/
def fadd : Fl → Fl → Fl
  | Fl.finite x, Fl.finite y => Fl.finite (x + y)
  | Fl.finite _, Fl.inf => Fl.inf
  | Fl.finite _, Fl.ninf => Fl.ninf
  | Fl.inf, Fl.finite _ => Fl.inf
  | Fl.ninf, Fl.finite _ => Fl.ninf
  | Fl.inf, Fl.inf => Fl.inf
  | Fl.ninf, Fl.ninf => Fl.ninf
  | _, _ => Fl.nan

/-- IEEE subtraction, as addition of the negation. -/
def fsub (x y : Fl) : Fl := fadd x (fneg y)

/-- IEEE multiplication; 0 * inf gives nan. -/
def fmul : Fl → Fl → Fl
  | Fl.finite x, Fl.finite y => Fl.finite (x * y)
  | Fl.finite x, Fl.inf => if x = 0 then Fl.nan else if 0 < x then Fl.inf else Fl.ninf
  | Fl.finite x, Fl.ninf => if x = 0 then Fl.nan else if 0 < x then Fl.ninf else Fl.inf
  | Fl.inf, Fl.finite y => if y = 0 then Fl.nan else if 0 < y then Fl.inf else Fl.ninf
  | Fl.ninf, Fl.finite y => if y = 0 then Fl.nan else if 0 < y then Fl.ninf else Fl.inf
  | Fl.inf, Fl.inf => Fl.inf
  | Fl.inf, Fl.ninf => Fl.ninf
  | Fl.ninf, Fl.inf => Fl.ninf
  | Fl.ninf, Fl.ninf => Fl.inf
  | _, _ => Fl.nan

/-- IEEE division; 0 / 0 gives nan, a nonzero finite numerator over (the
single unsigned) zero gives a signed infinity, as numpy does for x / +0.0. -/
def fdiv : Fl → Fl → Fl
  | Fl.finite x, Fl.finite y =>
      if y = 0 then (if x = 0 then Fl.nan else if 0 < x then Fl.inf else Fl.ninf)
      else Fl.finite (x / y)
  | Fl.finite _, Fl.inf => Fl.finite 0
  | Fl.finite _, Fl.ninf => Fl.finite 0
  | Fl.inf, Fl.finite y => if 0 ≤ y then Fl.inf else Fl.ninf
  | Fl.ninf, Fl.finite y => if 0 ≤ y then Fl.ninf else Fl.inf
  | _, _ => Fl.nan

/-- IEEE exponential: np.exp, with exp(-inf) = 0 and exp(inf) = inf. -/
def fexp : Fl → Fl
  | Fl.finite x => Fl.finite (Real.exp x)
  | Fl.inf => Fl.inf
  | Fl.ninf => Fl.finite 0
  | Fl.nan => Fl.nan

/-- IEEE square root: np.sqrt, nan on negative inputs. -/
def fsqrt : Fl → Fl
  | Fl.finite x => if x < 0 then Fl.nan else Fl.finite (Real.sqrt x)
  | Fl.inf => Fl.inf
  | Fl.ninf => Fl.nan
  | Fl.nan => Fl.nan

/-- IEEE strict less-than: any comparison involving nan is false. -/
def flt : Fl → Fl → Bool
  | Fl.finite x, Fl.finite y => if x < y then true else false
  | Fl.finite _, Fl.inf => true
  | Fl.finite _, Fl.ninf => false
  | Fl.inf, Fl.finite _ => false
  | Fl.inf, Fl.inf => false
  | Fl.inf, Fl.ninf => false
  | Fl.ninf, Fl.finite _ => true
  | Fl.ninf, Fl.inf => true
  | Fl.ninf, Fl.ninf => false
  | _, _ => false

/-- Whether a float is nan. -/
def Fl.isNaN : Fl → Bool
  | Fl.nan => true
  | _ => false

/-- The helper sigmoid function of mar and nmar: sig(x) = 1 / (1 + np.exp(-x)),
computed in floating point so that sig(nan) = nan. -/
def sig (x : Fl) : Fl := fdiv (Fl.finite 1) (fadd (Fl.finite 1) (fexp (fneg x)))

/-- The helper z-score function of the numeric branch: (val - mean) / std. -/
def zscore (val mean std : Fl) : Fl := fdiv (fsub val mean) std

/-- np.sum of a list of floats. -/
def fsum (l : List Fl) : Fl := l.foldl fadd (Fl.finite 0)

/-- pandas skipna: the values of a Series that are not nan. -/
def dropna (l : List Fl) : List Fl := l.filter (fun x => !x.isNaN)

/-- np.mean on a pandas Series delegates to Series.mean, which skips nan
values; the mean of no remaining values is nan. -/
def fmean (l : List Fl) : Fl :=
  if (dropna l).isEmpty then Fl.nan
  else fdiv (fsum (dropna l)) (Fl.finite (dropna l).length)

/-- np.std on a pandas Series delegates to Series.std with ddof 0: the
square root of the mean squared deviation from the skipna mean.  A nan
value's deviation is nan and is dropped again by the skipna mean, so the
deviations averaged are exactly those of the non-nan values. -/
def fstd (l : List Fl) : Fl :=
  fsqrt (fmean (l.map (fun x => fmul (fsub x (fmean l)) (fsub x (fmean l)))))

/-- A cell value: a categorical (string) value, a boolean, or a number.
np.nan, the missing marker, is the numeric value Fl.nan. -/
inductive Val where
  | cat (s : String)
  | boolv (b : Bool)
  | num (x : Fl)

/-- The missing marker np.nan written into cells. -/
def naVal : Val := Val.num Fl.nan

/-- Whether a cell holds the missing marker. -/
def Val.isNA : Val → Bool
  | Val.num Fl.nan => true
  | _ => false

/-- Numeric view of a cell, used by the numeric (z-score) branch. -/
def Val.toFl : Val → Fl
  | Val.num x => x
  | _ => Fl.nan

/-- The declared dtype of a pandas column. -/
inductive DType where
  | object
  | boolean
  | int64
  | float64
deriving DecidableEq

/-- A pandas column: a declared dtype and the cell values. -/
structure Column where
  dtype : DType
  vals : List Val

/-- A dataframe: an ordered association of column names to columns. -/
abbrev Dataset := List (String × Column)

/-- dataset[name]: the first column with the given name, none when absent
(pandas raises a KeyError at the call site in that case). -/
def getCol : Dataset → String → Option Column
  | [], _ => none
  | (n, c) :: rest, name => if n = name then some c else getCol rest name

/-- Replace the values of the named column, keeping its dtype. -/
def setColVals : Dataset → String → List Val → Dataset
  | [], _, _ => []
  | e :: rest, name, vs =>
      if e.1 = name then (e.1, Column.mk e.2.dtype vs) :: setColVals rest name vs
      else e :: setColVals rest name vs

/-- dataset[name].iloc[i] = np.nan: write the missing marker into row i of
the named column. -/
def setCell : Dataset → String → ℕ → Dataset
  | [], _, _ => []
  | e :: rest, name, i =>
      if e.1 = name then
        (e.1, Column.mk e.2.dtype (e.2.vals.set i naVal)) :: setCell rest name i
      else e :: setCell rest name i

/-- The row loop of mcar: row i keeps its value unless the Bernoulli(p)
trial fires, in which case it is overwritten with np.nan.  The trial for
row i reads the uniform draw g i and fires exactly when g i < p. -/
def mcarVals (vals : List Val) (p : ℝ) (g : ℕ → ℝ) (i : ℕ) : List Val :=
  match vals with
  | [] => []
  | v :: rest => (if g i < p then naVal else v) :: mcarVals rest p g (i + 1)

/-- mcar(dataset, column, p): validate p, then iterate dataset[column]
(raising a KeyError when the column is absent) marking each cell missing
with probability p.  Each row reads exactly one uniform draw, and a row is
written only after it has been read, so the loop is the pointwise map
mcarVals of the original column. -/
def mcar (d : Dataset) (column : String) (p : ℝ) (g : ℕ → ℝ) :
    Except String Dataset :=
  if p < 0 ∨ p > 1 then
    Except.error "probability of missing values must be between 0 and 1"
  else
    match getCol d column with
    | none => Except.error "KeyError"
    | some col => Except.ok (setColVals d column (mcarVals col.vals p g 0))

/-- Helper for pandas Series.unique(): keep the first occurrence of each
value, in order of first observation, skipping values already seen. -/
def uniqueAux : List Val → List Val → List Val
  | [], _ => []
  | x :: xs, seen =>
      if x ∈ seen then uniqueAux xs seen else x :: uniqueAux xs (x :: seen)

/-- pandas Series.unique(): the distinct values in first-observed order. -/
def uniqueList (l : List Val) : List Val := uniqueAux l []

/-- The dict comprehension of the categorical branch:
cat_dict = (cat : sig(np.random.normal()) for each unique cat), consuming one
normal draw per distinct value, taken from stream positions k, k+1, ... -/
def catAssign (uniq : List Val) (g : ℕ → ℝ) (k : ℕ) : List (Val × Fl) :=
  match uniq with
  | [] => []
  | c :: rest => (c, sig (Fl.finite (g k))) :: catAssign rest g (k + 1)

/-- Python dict lookup cat_dict[v]: none models the KeyError case. -/
def lookupA : List (Val × Fl) → Val → Option Fl
  | [], _ => none
  | (c, p) :: rest, v => if v = c then some p else lookupA rest v

/-- The per-row base probabilities of the categorical branch: each row's
dep_column value looked up in cat_dict.  Rows read their dep_column value
before their own cell is (possibly) overwritten, and only earlier rows have
been overwritten by then, so the lookup key is the original value. -/
def catProbs (vals : List Val) (g : ℕ → ℝ) : List (Option Fl) :=
  vals.map (lookupA (catAssign (uniqueList vals) g 0))

/-- The per-row base probabilities of the numeric branch: the z-score of the
row's value against the whole column's np.mean and np.std, passed through
the sigmoid.  Mean and std are computed once, before the row loop. -/
def numProbs (vals : List Val) : List (Option Fl) :=
  vals.map (fun v =>
    some (sig (zscore v.toFl (fmean (vals.map Val.toFl)) (fstd (vals.map Val.toFl)))))

/-- The p-vector validation of np.random.choice([1, 0], p = [q, 1 - q]):
a non-finite q makes the kahan sum of [q, 1 - q] nan, raising
"probabilities contain NaN"; a finite q outside [0, 1] makes one of the two
entries negative, raising "probabilities are not non-negative"; a finite q
in [0, 1] passes, the entries summing to 1. -/
def choiceCheck : Fl → Option String
  | Fl.finite q =>
      if q < 0 ∨ q > 1 then some "probabilities are not non-negative"
      else none
  | _ => some "probabilities contain NaN"

/-- The sampling step of np.random.choice([1, 0], p = [pr * b, 1 - pr * b])
once its p-vector has passed validation: read the uniform draw g k and
return 1 exactly when g k < pr * b. -/
def trialOf (b : ℝ) (g : ℕ → ℝ) (k : ℕ) (pr : Fl) : Bool :=
  flt (Fl.finite (g k)) (fmul pr (Fl.finite b))

/-- The row loop shared by mar and nmar.  probs holds each row's base
probability (none when the dict lookup would raise a KeyError, which aborts
the loop at that row).  np.random.choice first validates its p-vector —
aborting with a ValueError when the trial probability pr * b is nan (for
instance a nan base probability, even when b = 0) — and only then samples.
i is the current row index, k the current stream position; each validated
row consumes one uniform draw.  When the trial fires, the target column is
looked up — a KeyError is raised there when it is absent — and row i of it
is overwritten with np.nan. -/
def marLoop (d : Dataset) (miss : String) (probs : List (Option Fl)) (b : ℝ)
    (g : ℕ → ℝ) (i k : ℕ) : Except String Dataset :=
  match probs with
  | [] => Except.ok d
  | none :: _ => Except.error "KeyError"
  | some pr :: rest =>
      match choiceCheck (fmul pr (Fl.finite b)) with
      | some msg => Except.error msg
      | none =>
          if trialOf b g k pr then
            match getCol d miss with
            | none => Except.error "KeyError"
            | some _ => marLoop (setCell d miss i) miss rest b g (i + 1) (k + 1)
          else marLoop d miss rest b g (i + 1) (k + 1)

/-- The base-probability list mar builds for a dependent column: the
categorical assignment for object or bool dtype, the z-score pipeline
otherwise. -/
def marProbs (depCol : Column) (g : ℕ → ℝ) : List (Option Fl) :=
  if depCol.dtype = DType.object ∨ depCol.dtype = DType.boolean then
    catProbs depCol.vals g
  else numProbs depCol.vals

/-- The stream position where the row loop starts: the categorical branch
first consumes one normal draw per distinct value of the dependent column,
the numeric branch consumes none. -/
def marStartIdx (depCol : Column) : ℕ :=
  if depCol.dtype = DType.object ∨ depCol.dtype = DType.boolean then
    (uniqueList depCol.vals).length
  else 0

/-- mar(dataset, miss_column, dep_column, b): validate b, look up the
dependent column's dtype (raising a KeyError when it is absent), then
dispatch on that dtype: the categorical assignment for object or bool, the
z-score pipeline otherwise, followed by the shared row loop. -/
def mar (d : Dataset) (missColumn depColumn : String) (b : ℝ) (g : ℕ → ℝ) :
    Except String Dataset :=
  if b < 0 ∨ b > 1 then Except.error "beta value must be between 0 and 1"
  else
    match getCol d depColumn with
    | none => Except.error "KeyError"
    | some depCol =>
      if depCol.dtype = DType.object ∨ depCol.dtype = DType.boolean then
        marLoop d missColumn (catProbs depCol.vals g) b g 0
          ((uniqueList depCol.vals).length)
      else
        marLoop d missColumn (numProbs depCol.vals) b g 0 0

/-- nmar(dataset, column, b): the same algorithm as mar with the dependent
column equal to the target column itself. -/
def nmar (d : Dataset) (column : String) (b : ℝ) (g : ℕ → ℝ) :
    Except String Dataset :=
  if b < 0 ∨ b > 1 then Except.error "beta value must be between 0 and 1"
  else
    match getCol d column with
    | none => Except.error "KeyError"
    | some col =>
      if col.dtype = DType.object ∨ col.dtype = DType.boolean then
        marLoop d column (catProbs col.vals g) b g 0
          ((uniqueList col.vals).length)
      else
        marLoop d column (numProbs col.vals) b g 0 0

/-- A fixed random stream used to exercise the mechanisms on concrete data:
every normal variate and every uniform draw equals 1/2. -/
def gHalf : ℕ → ℝ := fun _ => (1 : ℝ) / 2

/-- Shape of a dataset: the column names with their dtypes and lengths. -/
def shapeOf (d : Dataset) : List (String × DType × ℕ) :=
  d.map (fun e => (e.1, e.2.dtype, e.2.vals.length))

/-- Two datasets have the same column set, dtypes and row counts. -/
def shapeEq (d d' : Dataset) : Prop := shapeOf d' = shapeOf d

/-- Every cell of d' is the corresponding cell of d or the missing marker. -/
def cellsKeptOrNA (d d' : Dataset) : Prop :=
  ∀ name c, getCol d name = some c →
    ∃ c', getCol d' name = some c' ∧
      ∀ j, c'.vals.get? j = c.vals.get? j ∨ c'.vals.get? j = some naVal

/-- Cells that held the missing marker in d still hold it in d'. -/
def preservesNA (d d' : Dataset) : Prop :=
  ∀ name c, getCol d name = some c →
    ∃ c', getCol d' name = some c' ∧
      ∀ j v v', c.vals.get? j = some v → c'.vals.get? j = some v' →
        v.isNA = true → v'.isNA = true

/-- A one-row numeric dataset used to exercise the mechanisms. -/
def colNum1 : Column := Column.mk DType.float64 [Val.num (Fl.finite 1)]

/-- Dataset with the single numeric column a = [1.0]. -/
def dsNum : Dataset := [("a", colNum1)]

/-- A one-row categorical column. -/
def colCatX : Column := Column.mk DType.object [Val.cat "x"]

/-- Dataset with the single categorical column a = ["x"]. -/
def dsCat : Dataset := [("a", colCatX)]

/-- A constant two-row numeric column: zero standard deviation. -/
def colConst5 : Column :=
  Column.mk DType.float64 [Val.num (Fl.finite 5), Val.num (Fl.finite 5)]

/-- Dataset with the single constant numeric column x = [5.0, 5.0]. -/
def dsConst : Dataset := [("x", colConst5)]

/-- A categorical value list with a repeated category. -/
def valsAB : List Val := [Val.cat "A", Val.cat "B", Val.cat "A"]

theorem sig_finite (x : ℝ) :
    sig (Fl.finite x) = Fl.finite (1 / (1 + Real.exp (-x))) := by
  have h : (1 : ℝ) + Real.exp (-x) ≠ 0 := by positivity
  simp [sig, fneg, fexp, fadd, fdiv, h]

theorem getCol_setColVals (d : Dataset) (name : String) (vs : List Val)
    (name' : String) :
    getCol (setColVals d name vs) name' =
      if name' = name then
        (getCol d name').map (fun c => Column.mk c.dtype vs)
      else getCol d name' := by
  induction d with
  | nil => by_cases h : name' = name <;> simp [setColVals, getCol, h]
  | cons e rest ih =>
      obtain ⟨n, c0⟩ := e
      by_cases h1 : n = name
      · subst h1
        by_cases h2 : n = name'
        · subst h2
          simp [setColVals, getCol]
        · have h2' : ¬ name' = n := fun hc => h2 hc.symm
          simp [setColVals, getCol, h2, h2', ih]
      · by_cases h2 : n = name'
        · subst h2
          simp [setColVals, getCol, h1, ih]
        · have h2' : ¬ name' = n := fun hc => h2 hc.symm
          simp [setColVals, getCol, h1, h2, h2', ih]

theorem getCol_setCell (d : Dataset) (name : String) (i : ℕ) (name' : String) :
    getCol (setCell d name i) name' =
      if name' = name then
        (getCol d name').map (fun c => Column.mk c.dtype (c.vals.set i naVal))
      else getCol d name' := by
  induction d with
  | nil => by_cases h : name' = name <;> simp [setCell, getCol, h]
  | cons e rest ih =>
      obtain ⟨n, c0⟩ := e
      by_cases h1 : n = name
      · subst h1
        by_cases h2 : n = name'
        · subst h2
          simp [setCell, getCol]
        · have h2' : ¬ name' = n := fun hc => h2 hc.symm
          simp [setCell, getCol, h2, h2', ih]
      · by_cases h2 : n = name'
        · subst h2
          simp [setCell, getCol, h1, ih]
        · have h2' : ¬ name' = n := fun hc => h2 hc.symm
          simp [setCell, getCol, h1, h2, h2', ih]

theorem shapeEq_refl (d : Dataset) : shapeEq d d := rfl

theorem shapeEq_trans {d1 d2 d3 : Dataset} (h1 : shapeEq d1 d2)
    (h2 : shapeEq d2 d3) : shapeEq d1 d3 := h2.trans h1

theorem shapeEq_setCell (d : Dataset) (name : String) (i : ℕ) :
    shapeEq d (setCell d name i) := by
  induction d with
  | nil => rfl
  | cons e rest ih =>
      by_cases h : e.1 = name <;>
        simpa [shapeEq, shapeOf, setCell, h] using ih

theorem trialOf_bzero (g : ℕ → ℝ) (k : ℕ) (hg : 0 ≤ g k) (pr : Fl) :
    trialOf 0 g k pr = false := by
  cases pr with
  | finite x => simp [trialOf, fmul, flt, not_lt.2 hg]
  | inf => simp [trialOf, fmul, flt]
  | ninf => simp [trialOf, fmul, flt]
  | nan => simp [trialOf, fmul, flt]

theorem marLoop_cons_ok {d d' : Dataset} {miss : String} {q : Fl}
    {rest : List (Option Fl)} {b : ℝ} {g : ℕ → ℝ} {i k : ℕ}
    (h : marLoop d miss (some q :: rest) b g i k = Except.ok d') :
    choiceCheck (fmul q (Fl.finite b)) = none ∧
    ((trialOf b g k q = true ∧ ∃ c, getCol d miss = some c ∧
        marLoop (setCell d miss i) miss rest b g (i + 1) (k + 1) =
          Except.ok d') ∨
      (trialOf b g k q = false ∧
        marLoop d miss rest b g (i + 1) (k + 1) = Except.ok d')) := by
  rw [marLoop] at h
  cases hcc : choiceCheck (fmul q (Fl.finite b)) with
  | some msg =>
      rw [hcc] at h
      simp at h
  | none =>
      simp only [hcc] at h
      refine ⟨rfl, ?_⟩
      by_cases ht : trialOf b g k q = true
      · rw [if_pos ht] at h
        cases hc : getCol d miss with
        | none => rw [hc] at h; simp at h
        | some c =>
            rw [hc] at h
            exact Or.inl ⟨ht, c, rfl, h⟩
      · rw [if_neg ht] at h
        exact Or.inr ⟨Bool.eq_false_iff.mpr ht, h⟩

theorem marLoop_shape {d d' : Dataset} {miss : String} {probs : List (Option Fl)}
    {b : ℝ} {g : ℕ → ℝ} {i k : ℕ}
    (h : marLoop d miss probs b g i k = Except.ok d') : shapeEq d d' := by
  induction probs generalizing d i k with
  | nil =>
      simp only [marLoop, Except.ok.injEq] at h
      subst h
      exact shapeEq_refl _
  | cons pr rest ih =>
      cases pr with
      | none => simp [marLoop] at h
      | some q =>
          obtain ⟨hcc, hrest⟩ := marLoop_cons_ok h
          rcases hrest with ⟨ht, c, hc, h2⟩ | ⟨ht, h2⟩
          · exact shapeEq_trans (shapeEq_setCell d miss i) (ih h2)
          · exact ih h2

theorem marLoop_other {d d' : Dataset} {miss : String} {probs : List (Option Fl)}
    {b : ℝ} {g : ℕ → ℝ} {i k : ℕ}
    (h : marLoop d miss probs b g i k = Except.ok d') (name : String)
    (hne : name ≠ miss) : getCol d' name = getCol d name := by
  induction probs generalizing d i k with
  | nil =>
      simp only [marLoop, Except.ok.injEq] at h
      subst h
      rfl
  | cons pr rest ih =>
      cases pr with
      | none => simp [marLoop] at h
      | some q =>
          obtain ⟨hcc, hrest⟩ := marLoop_cons_ok h
          rcases hrest with ⟨ht, c, hc, h2⟩ | ⟨ht, h2⟩
          · rw [ih h2, getCol_setCell, if_neg hne]
          · exact ih h2

theorem marLoop_all_false {d : Dataset} {miss : String} {probs : List (Option Fl)}
    {b : ℝ} {g : ℕ → ℝ} {i k : ℕ}
    (hsome : ∀ x ∈ probs, x ≠ none)
    (hfalse : ∀ t pr, probs.get? t = some (some pr) →
      choiceCheck (fmul pr (Fl.finite b)) = none ∧
      trialOf b g (k + t) pr = false) :
    marLoop d miss probs b g i k = Except.ok d := by
  induction probs generalizing d i k with
  | nil => simp [marLoop]
  | cons pr rest ih =>
      cases pr with
      | none => exact absurd rfl (hsome none (List.mem_cons_self _ _))
      | some q =>
          obtain ⟨hcc0, ht0⟩ := hfalse 0 q (by simp)
          rw [Nat.add_zero] at ht0
          simp only [marLoop, hcc0]
          by_cases htc : trialOf b g k q = true
          · rw [ht0] at htc
            exact Bool.noConfusion htc
          · rw [if_neg htc]
            refine ih (fun x hx => hsome x (List.mem_cons_of_mem _ hx)) ?_
            intro t pr hpr
            obtain ⟨h1, h2⟩ := hfalse (t + 1) pr (by simpa using hpr)
            have e : k + (t + 1) = k + 1 + t := by omega
            rw [e] at h2
            exact ⟨h1, h2⟩

theorem marLoop_cols {d d' : Dataset} {miss : String} {probs : List (Option Fl)}
    {b : ℝ} {g : ℕ → ℝ} {i k : ℕ}
    (h : marLoop d miss probs b g i k = Except.ok d')
    (name : String) (c : Column) (hc : getCol d name = some c) :
    ∃ c', getCol d' name = some c' ∧ c'.dtype = c.dtype ∧
      c'.vals.length = c.vals.length ∧
      (∀ j, c'.vals.get? j = c.vals.get? j ∨ c'.vals.get? j = some naVal) ∧
      (∀ j, (∀ t pr, j = i + t → probs.get? t = some (some pr) →
          trialOf b g (k + t) pr = false) →
        c'.vals.get? j = c.vals.get? j) := by
  induction probs generalizing d i k c with
  | nil =>
      simp only [marLoop, Except.ok.injEq] at h
      subst h
      exact ⟨c, hc, rfl, rfl, fun j => Or.inl rfl, fun j _ => rfl⟩
  | cons pr rest ih =>
      cases pr with
      | none => simp [marLoop] at h
      | some q =>
          obtain ⟨hcc, hrest⟩ := marLoop_cons_ok h
          rcases hrest with ⟨ht, cm, hcm, h2⟩ | ⟨ht, h2⟩
          · by_cases hnm : name = miss
            · subst hnm
              have hsc : getCol (setCell d name i) name =
                  some (Column.mk c.dtype (c.vals.set i naVal)) := by
                rw [getCol_setCell, if_pos rfl, hc]
                rfl
              obtain ⟨c', h1, hd2, h3, h4, h5⟩ := ih h2 _ hsc
              refine ⟨c', h1, by simpa using hd2,
                by simpa [List.length_set] using h3, ?_, ?_⟩
              · intro j
                rcases h4 j with h4j | h4j
                · by_cases hij : i = j
                  · subst hij
                    rw [h4j]
                    simp only [List.get?_set_eq]
                    cases hgi : c.vals.get? i with
                    | none => exact Or.inl (by simp)
                    | some v => exact Or.inr (by simp)
                  · exact Or.inl (by rw [h4j, List.get?_set_ne _ _ hij])
                · exact Or.inr h4j
              · intro j hj
                have hji : j ≠ i := by
                  intro hji
                  subst hji
                  have h0 := hj 0 q (by omega) (by simp)
                  rw [Nat.add_zero, ht] at h0
                  cases h0
                have h6 := h5 j ?_
                · rw [h6, List.get?_set_ne _ _ (fun hij => hji hij.symm)]
                · intro t pr hjt hpr
                  obtain h7 := hj (t + 1) pr (by omega) (by simpa using hpr)
                  have e : k + (t + 1) = k + 1 + t := by omega
                  rwa [e] at h7
            · have hsc : getCol (setCell d miss i) name = some c := by
                rw [getCol_setCell, if_neg hnm]
                exact hc
              obtain ⟨c', h1, hd2, h3, h4, h5⟩ := ih h2 _ hsc
              refine ⟨c', h1, hd2, h3, h4, fun j hj => h5 j ?_⟩
              intro t pr hjt hpr
              obtain h6 := hj (t + 1) pr (by omega) (by simpa using hpr)
              have e : k + (t + 1) = k + 1 + t := by omega
              rwa [e] at h6
          · obtain ⟨c', h1, hd2, h3, h4, h5⟩ := ih h2 c hc
            refine ⟨c', h1, hd2, h3, h4, fun j hj => h5 j ?_⟩
            intro t pr hjt hpr
            obtain h6 := hj (t + 1) pr (by omega) (by simpa using hpr)
            have e : k + (t + 1) = k + 1 + t := by omega
            rwa [e] at h6

theorem mcarVals_length (vals : List Val) (p : ℝ) (g : ℕ → ℝ) (i : ℕ) :
    (mcarVals vals p g i).length = vals.length := by
  induction vals generalizing i with
  | nil => rfl
  | cons v rest ih => simp [mcarVals, ih]

theorem mcarVals_get (vals : List Val) (p : ℝ) (g : ℕ → ℝ) (i j : ℕ) :
    (mcarVals vals p g i).get? j =
      (vals.get? j).map (fun v => if g (i + j) < p then naVal else v) := by
  induction vals generalizing i j with
  | nil => simp [mcarVals]
  | cons v rest ih =>
      cases j with
      | zero => simp [mcarVals]
      | succ j =>
          have e : i + (j + 1) = i + 1 + j := by omega
          simp only [mcarVals, List.get?_cons_succ, ih (i + 1) j, e]

theorem mcarVals_zero (vals : List Val) (g : ℕ → ℝ) (i : ℕ)
    (hg : ∀ k, 0 ≤ g k) : mcarVals vals 0 g i = vals := by
  induction vals generalizing i with
  | nil => rfl
  | cons v rest ih => simp [mcarVals, not_lt.2 (hg i), ih]

theorem mcarVals_one (vals : List Val) (g : ℕ → ℝ) (i : ℕ)
    (hg : ∀ k, g k < 1) :
    mcarVals vals 1 g i = List.replicate vals.length naVal := by
  induction vals generalizing i with
  | nil => rfl
  | cons v rest ih => simp [mcarVals, hg i, ih, List.replicate_succ]

theorem setColVals_of_not_mem (d : Dataset) (name : String) (vs : List Val)
    (h : ∀ e ∈ d, e.1 ≠ name) : setColVals d name vs = d := by
  induction d with
  | nil => rfl
  | cons e rest ih =>
      simp only [setColVals]
      rw [if_neg (h e (List.mem_cons_self _ _)),
        ih (fun x hx => h x (List.mem_cons_of_mem _ hx))]

theorem setColVals_self (d : Dataset) (c : String) (col : Column)
    (hnd : (d.map Prod.fst).Nodup) (h : getCol d c = some col) :
    setColVals d c col.vals = d := by
  induction d with
  | nil => rfl
  | cons e rest ih =>
      obtain ⟨n, c0⟩ := e
      simp only [List.map_cons, List.nodup_cons] at hnd
      by_cases hn : n = c
      · subst hn
        simp only [getCol, eq_self_iff_true, if_true, Option.some.injEq] at h
        subst h
        simp only [setColVals, eq_self_iff_true, if_true]
        rw [setColVals_of_not_mem rest n _
          (fun x hx hxn => hnd.1 (hxn ▸ List.mem_map_of_mem Prod.fst hx))]
      · simp only [getCol, if_neg hn] at h
        simp only [setColVals, if_neg hn]
        rw [ih hnd.2 h]

theorem mem_uniqueAux (l : List Val) :
    ∀ v : Val, v ∈ l → ∀ seen, v ∈ seen ∨ v ∈ uniqueAux l seen := by
  induction l with
  | nil => intro v hv; cases hv
  | cons x xs ih =>
      intro v hv seen
      by_cases hx : x ∈ seen
      · rcases List.mem_cons.mp hv with h | h
        · exact Or.inl (h ▸ hx)
        · simpa [uniqueAux, hx] using ih v h seen
      · rcases List.mem_cons.mp hv with h | h
        · subst h
          right
          simp [uniqueAux, hx]
        · rcases ih v h (x :: seen) with h1 | h1
          · rcases List.mem_cons.mp h1 with h2 | h2
            · subst h2
              right
              simp [uniqueAux, hx]
            · exact Or.inl h2
          · right
            simp only [uniqueAux, if_neg hx]
            exact List.mem_cons_of_mem _ h1

theorem mem_uniqueList (l : List Val) (v : Val) (hv : v ∈ l) :
    v ∈ uniqueList l := by
  rcases mem_uniqueAux l v hv [] with h | h
  · cases h
  · exact h

theorem lookupA_catAssign (uniq : List Val) (g : ℕ → ℝ) (k : ℕ) (v : Val)
    (hv : v ∈ uniq) : ∃ pr, lookupA (catAssign uniq g k) v = some pr := by
  induction uniq generalizing k with
  | nil => cases hv
  | cons c rest ih =>
      by_cases hc : v = c
      · exact ⟨sig (Fl.finite (g k)), by simp [catAssign, lookupA, hc]⟩
      · rcases List.mem_cons.mp hv with h | h
        · exact absurd h hc
        · obtain ⟨pr, hpr⟩ := ih (k + 1) h
          exact ⟨pr, by simp [catAssign, lookupA, hc, hpr]⟩

theorem catAssign_length (uniq : List Val) (g : ℕ → ℝ) (k : ℕ) :
    (catAssign uniq g k).length = uniq.length := by
  induction uniq generalizing k with
  | nil => rfl
  | cons c rest ih => simp [catAssign, ih]

theorem catAssign_get (uniq : List Val) (g : ℕ → ℝ) (k t : ℕ) (c : Val)
    (h : uniq.get? t = some c) :
    (catAssign uniq g k).get? t = some (c, sig (Fl.finite (g (k + t)))) := by
  induction uniq generalizing k t with
  | nil => simp at h
  | cons c0 rest ih =>
      cases t with
      | zero =>
          simp only [List.get?_cons_zero, Option.some.injEq] at h
          subst h
          simp [catAssign]
      | succ t =>
          simp only [List.get?_cons_succ] at h
          have e : k + (t + 1) = k + 1 + t := by omega
          simp only [catAssign, List.get?_cons_succ, ih (k + 1) t h, e]

theorem catProbs_all_some (vals : List Val) (g : ℕ → ℝ) :
    ∀ x ∈ catProbs vals g, x ≠ none := by
  intro x hx
  simp only [catProbs, List.mem_map] at hx
  obtain ⟨v, hv, hxv⟩ := hx
  obtain ⟨pr, hpr⟩ := lookupA_catAssign _ g 0 v (mem_uniqueList vals v hv)
  rw [← hxv, hpr]
  simp

theorem numProbs_all_some (vals : List Val) :
    ∀ x ∈ numProbs vals, x ≠ none := by
  intro x hx
  simp only [numProbs, List.mem_map] at hx
  obtain ⟨v, _, hxv⟩ := hx
  rw [← hxv]
  simp

theorem catProbs_congr (vals : List Val) (g : ℕ → ℝ) (i j : ℕ)
    (hij : vals.get? i = vals.get? j) :
    (catProbs vals g).get? i = (catProbs vals g).get? j := by
  simp only [catProbs, List.get?_map, hij]

theorem marProbs_all_some (depCol : Column) (g : ℕ → ℝ) :
    ∀ x ∈ marProbs depCol g, x ≠ none := by
  unfold marProbs
  by_cases h : depCol.dtype = DType.object ∨ depCol.dtype = DType.boolean
  · rw [if_pos h]
    exact catProbs_all_some depCol.vals g
  · rw [if_neg h]
    exact numProbs_all_some depCol.vals

theorem mar_eq_marLoop (d : Dataset) (m dep : String) (b : ℝ) (g : ℕ → ℝ)
    (hb : ¬(b < 0 ∨ b > 1)) (depCol : Column)
    (hdep : getCol d dep = some depCol) :
    mar d m dep b g =
      marLoop d m (marProbs depCol g) b g 0 (marStartIdx depCol) := by
  rw [mar, if_neg hb, hdep]
  by_cases hc : depCol.dtype = DType.object ∨ depCol.dtype = DType.boolean <;>
    simp [marProbs, marStartIdx, hc]

theorem nmar_eq_marLoop (d : Dataset) (c : String) (b : ℝ) (g : ℕ → ℝ)
    (hb : ¬(b < 0 ∨ b > 1)) (col : Column) (hcol : getCol d c = some col) :
    nmar d c b g =
      marLoop d c (marProbs col g) b g 0 (marStartIdx col) := by
  rw [nmar, if_neg hb, hcol]
  by_cases hc : col.dtype = DType.object ∨ col.dtype = DType.boolean <;>
    simp [marProbs, marStartIdx, hc]

/-- Claim C2: for every dataset and every tuning parameter outside [0, 1]
(p for mcar, b for mar and nmar), the call raises the validation error as
its very first step, before any sampling or column access, and returns no
dataset at all, so the input dataset is left exactly as it was. -/
theorem C2_param_range_validation (d : Dataset) (c m dep : String)
    (p b : ℝ) (g : ℕ → ℝ) (hp : p < 0 ∨ p > 1) (hb : b < 0 ∨ b > 1) :
    mcar d c p g =
        Except.error "probability of missing values must be between 0 and 1" ∧
    mar d m dep b g = Except.error "beta value must be between 0 and 1" ∧
    nmar d c b g = Except.error "beta value must be between 0 and 1" := by
  refine ⟨?_, ?_, ?_⟩
  · rw [mcar, if_pos hp]
  · rw [mar, if_pos hb]
  · rw [nmar, if_pos hb]

/-- Witness for C2 at p = b = 2 on a concrete dataset. -/
theorem C2_witness :
    mcar dsNum "a" 2 gHalf =
        Except.error "probability of missing values must be between 0 and 1" ∧
    mar dsNum "a" "a" 2 gHalf =
        Except.error "beta value must be between 0 and 1" ∧
    nmar dsNum "a" 2 gHalf =
        Except.error "beta value must be between 0 and 1" :=
  C2_param_range_validation dsNum "a" "a" "a" 2 2 gHalf
    (Or.inr (by norm_num)) (Or.inr (by norm_num))

/-- Claim C3: on a dataset with distinct column names and an existing target
column, mcar with p = 0 returns the dataset unchanged (zero new missing
cells, every cell keeps its value), and mcar with p = 1 overwrites every
cell of the target column with the missing marker.  The uniform draws of
the stream lie in [0, 1). -/
theorem C3_mcar_p_zero_one (d : Dataset) (c : String) (col : Column)
    (g : ℕ → ℝ) (hnd : (d.map Prod.fst).Nodup)
    (hcol : getCol d c = some col) (hg : ∀ k, 0 ≤ g k ∧ g k < 1) :
    mcar d c 0 g = Except.ok d ∧
    ∃ d', mcar d c 1 g = Except.ok d' ∧
      getCol d' c =
        some (Column.mk col.dtype (List.replicate col.vals.length naVal)) := by
  have h0 : ¬((0 : ℝ) < 0 ∨ (0 : ℝ) > 1) := by norm_num
  have h1 : ¬((1 : ℝ) < 0 ∨ (1 : ℝ) > 1) := by norm_num
  constructor
  · rw [mcar, if_neg h0]
    simp only [hcol]
    rw [mcarVals_zero col.vals g 0 (fun k => (hg k).1),
      setColVals_self d c col hnd hcol]
  · refine ⟨setColVals d c (List.replicate col.vals.length naVal), ?_, ?_⟩
    · rw [mcar, if_neg h1]
      simp only [hcol]
      rw [mcarVals_one col.vals g 0 (fun k => (hg k).2)]
    · rw [getCol_setColVals, if_pos rfl, hcol]
      rfl

/-- Witness for C3 on the dataset with column a = [1.0]. -/
theorem C3_witness :
    mcar dsNum "a" 0 gHalf = Except.ok dsNum ∧
    ∃ d', mcar dsNum "a" 1 gHalf = Except.ok d' ∧
      getCol d' "a" =
        some (Column.mk colNum1.dtype
          (List.replicate colNum1.vals.length naVal)) :=
  C3_mcar_p_zero_one dsNum "a" colNum1 gHalf (by simp [dsNum])
    (by simp [dsNum, getCol]) (fun k => by norm_num [gHalf])

/-- A finite base probability multiplied by b = 0 gives the finite trial
probability 0, which passes the p-vector validation. -/
theorem choiceCheck_fin_bzero (r : ℝ) :
    choiceCheck (fmul (Fl.finite r) (Fl.finite 0)) = none := by
  simp only [fmul, mul_zero, choiceCheck]
  norm_num

/-- Every probability stored in cat_dict is a sigmoid of a normal draw. -/
theorem lookupA_catAssign_shape (uniq : List Val) (g : ℕ → ℝ) (k : ℕ)
    (v : Val) (pr : Fl) (h : lookupA (catAssign uniq g k) v = some pr) :
    ∃ z : ℝ, pr = sig (Fl.finite z) := by
  induction uniq generalizing k with
  | nil => simp [catAssign, lookupA] at h
  | cons c rest ih =>
      simp only [catAssign, lookupA] at h
      by_cases hv : v = c
      · rw [if_pos hv] at h
        exact ⟨g k, (Option.some.inj h).symm⟩
      · rw [if_neg hv] at h
        exact ih (k + 1) h

/-- Every present categorical base probability is a finite number. -/
theorem catProbs_fin (vals : List Val) (g : ℕ → ℝ) :
    ∀ x ∈ catProbs vals g, ∀ pr, x = some pr → ∃ r, pr = Fl.finite r := by
  intro x hx pr hpr
  subst hpr
  simp only [catProbs, List.mem_map] at hx
  obtain ⟨v, hv, hxv⟩ := hx
  obtain ⟨z, hz⟩ := lookupA_catAssign_shape (uniqueList vals) g 0 v pr hxv
  subst hz
  rw [sig_finite]
  exact ⟨_, rfl⟩

/-- With b = 0 and all base probabilities finite numbers, the row loop
passes every validation, never fires, and returns the dataset unchanged. -/
theorem marLoop_bzero_fin {d : Dataset} {miss : String}
    {probs : List (Option Fl)} {g : ℕ → ℝ} {i k : ℕ}
    (hsome : ∀ x ∈ probs, x ≠ none)
    (hfin : ∀ x ∈ probs, ∀ pr, x = some pr → ∃ r, pr = Fl.finite r)
    (hg : ∀ t, 0 ≤ g t) :
    marLoop d miss probs 0 g i k = Except.ok d := by
  refine marLoop_all_false hsome (fun t pr hpt => ?_)
  have hmem : some pr ∈ probs := List.get?_mem hpt
  obtain ⟨r, hr⟩ := hfin _ hmem pr rfl
  subst hr
  exact ⟨choiceCheck_fin_bzero r, trialOf_bzero g _ (hg _) _⟩

/-- With b = 0 the row loop either returns the dataset unchanged (all trial
probabilities the valid 0) or aborts with the nan-probability validation
error; it never marks a cell missing. -/
theorem marLoop_bzero {d : Dataset} {miss : String}
    {probs : List (Option Fl)} {g : ℕ → ℝ} {i k : ℕ}
    (hsome : ∀ x ∈ probs, x ≠ none) (hg : ∀ t, 0 ≤ g t) :
    marLoop d miss probs 0 g i k = Except.ok d ∨
    marLoop d miss probs 0 g i k =
      Except.error "probabilities contain NaN" := by
  induction probs generalizing i k with
  | nil => left; simp [marLoop]
  | cons pr rest ih =>
      cases pr with
      | none => exact absurd rfl (hsome none (List.mem_cons_self _ _))
      | some q =>
          cases q with
          | finite r =>
              simp only [marLoop, choiceCheck_fin_bzero r]
              by_cases htc : trialOf 0 g k (Fl.finite r) = true
              · rw [trialOf_bzero g k (hg k) (Fl.finite r)] at htc
                exact Bool.noConfusion htc
              · rw [if_neg htc]
                exact ih (fun x hx => hsome x (List.mem_cons_of_mem _ hx))
          | inf => right; simp [marLoop, fmul, choiceCheck]
          | ninf => right; simp [marLoop, fmul, choiceCheck]
          | nan => right; simp [marLoop, fmul, choiceCheck]

/-- Claim C4 counterexample: with the constant numeric dependent column
x = [5.0, 5.0] every base probability is nan, the trial probability
nan * 0 is nan — not 0 as the claim asserts — and mar and nmar with b = 0
raise the probability-validation error of np.random.choice at the first
row instead of returning the dataset. -/
theorem C4_counterexample :
    fmul Fl.nan (Fl.finite 0) = Fl.nan ∧ Fl.nan ≠ Fl.finite 0 ∧
    mar dsConst "m" "x" 0 gHalf =
      Except.error "probabilities contain NaN" ∧
    nmar dsConst "x" 0 gHalf =
      Except.error "probabilities contain NaN" := by
  refine ⟨rfl, fun h => Fl.noConfusion h, ?_, ?_⟩
  · simp [mar, dsConst, colConst5, getCol, numProbs, fmean, dropna,
      Fl.isNaN, fsum, fstd, fsqrt, zscore, fsub, fadd, fneg, fdiv, fmul,
      Val.toFl, sig, fexp, marLoop, choiceCheck]
  · simp [nmar, dsConst, colConst5, getCol, numProbs, fmean, dropna,
      Fl.isNaN, fsum, fstd, fsqrt, zscore, fsub, fadd, fneg, fdiv, fmul,
      Val.toFl, sig, fexp, marLoop, choiceCheck]

/-- Claim C4 (amended): mar and nmar with b = 0 never mark a cell missing.
When every per-row base probability is a number — always the case for a
categorical (object or bool dtype) dependent column — the call returns the
dataset unchanged; in general the call either returns the dataset
unchanged or, when some base probability is nan (for instance a constant
numeric dependent column), raises the nan-probability validation error of
np.random.choice without mutating anything. -/
theorem C4_b_zero_amended (d : Dataset) (m dep c : String)
    (depCol col : Column) (g : ℕ → ℝ)
    (hdep : getCol d dep = some depCol) (hc : getCol d c = some col)
    (hg : ∀ k, 0 ≤ g k) :
    ((depCol.dtype = DType.object ∨ depCol.dtype = DType.boolean) →
      mar d m dep 0 g = Except.ok d) ∧
    ((∀ x ∈ marProbs depCol g, ∀ pr, x = some pr → ∃ r, pr = Fl.finite r) →
      mar d m dep 0 g = Except.ok d) ∧
    (mar d m dep 0 g = Except.ok d ∨
      mar d m dep 0 g = Except.error "probabilities contain NaN") ∧
    ((col.dtype = DType.object ∨ col.dtype = DType.boolean) →
      nmar d c 0 g = Except.ok d) ∧
    ((∀ x ∈ marProbs col g, ∀ pr, x = some pr → ∃ r, pr = Fl.finite r) →
      nmar d c 0 g = Except.ok d) ∧
    (nmar d c 0 g = Except.ok d ∨
      nmar d c 0 g = Except.error "probabilities contain NaN") := by
  have h0 : ¬((0 : ℝ) < 0 ∨ (0 : ℝ) > 1) := by norm_num
  refine ⟨?_, ?_, ?_, ?_, ?_, ?_⟩
  · intro hdt
    rw [mar_eq_marLoop d m dep 0 g h0 depCol hdep]
    refine marLoop_bzero_fin (marProbs_all_some depCol g) ?_ hg
    intro x hx pr hpr
    have hx2 : x ∈ catProbs depCol.vals g := by
      unfold marProbs at hx
      rwa [if_pos hdt] at hx
    exact catProbs_fin depCol.vals g x hx2 pr hpr
  · intro hfin
    rw [mar_eq_marLoop d m dep 0 g h0 depCol hdep]
    exact marLoop_bzero_fin (marProbs_all_some depCol g) hfin hg
  · rw [mar_eq_marLoop d m dep 0 g h0 depCol hdep]
    exact marLoop_bzero (marProbs_all_some depCol g) hg
  · intro hdt
    rw [nmar_eq_marLoop d c 0 g h0 col hc]
    refine marLoop_bzero_fin (marProbs_all_some col g) ?_ hg
    intro x hx pr hpr
    have hx2 : x ∈ catProbs col.vals g := by
      unfold marProbs at hx
      rwa [if_pos hdt] at hx
    exact catProbs_fin col.vals g x hx2 pr hpr
  · intro hfin
    rw [nmar_eq_marLoop d c 0 g h0 col hc]
    exact marLoop_bzero_fin (marProbs_all_some col g) hfin hg
  · rw [nmar_eq_marLoop d c 0 g h0 col hc]
    exact marLoop_bzero (marProbs_all_some col g) hg

/-- Witness for C4 (amended): with b = 0 on a categorical dependent column,
mar (with an absent target column) and nmar leave the dataset with column
a = ["x"] untouched. -/
theorem C4_witness :
    mar dsCat "m" "a" 0 gHalf = Except.ok dsCat ∧
    nmar dsCat "a" 0 gHalf = Except.ok dsCat := by
  have h := C4_b_zero_amended dsCat "m" "a" "a" colCatX colCatX gHalf
    (by simp [dsCat, getCol]) (by simp [dsCat, getCol])
    (fun k => by norm_num [gHalf])
  exact ⟨h.1 (Or.inl rfl), h.2.2.2.1 (Or.inl rfl)⟩

/-- Claim C5: in the categorical branch the assignment cat_dict has exactly
one entry per distinct value of the dependent column, the t-th entry pairs
the t-th distinct value with the sigmoid of the single normal draw g (k + t)
(one draw per distinct value), and two rows holding the same dependent value
receive the same base probability. -/
theorem C5_categorical_assignment (vals : List Val) (g : ℕ → ℝ) (k i j : ℕ)
    (hij : vals.get? i = vals.get? j) :
    (catAssign (uniqueList vals) g k).length = (uniqueList vals).length ∧
    (∀ t c, (uniqueList vals).get? t = some c →
      (catAssign (uniqueList vals) g k).get? t =
        some (c, sig (Fl.finite (g (k + t))))) ∧
    (catProbs vals g).get? i = (catProbs vals g).get? j :=
  ⟨catAssign_length _ g k, fun t c h => catAssign_get _ g k t c h,
    catProbs_congr vals g i j hij⟩

/-- Witness for C5 on the value list ["A", "B", "A"], rows 0 and 2. -/
theorem C5_witness :
    (catAssign (uniqueList valsAB) gHalf 0).length =
      (uniqueList valsAB).length ∧
    (∀ t c, (uniqueList valsAB).get? t = some c →
      (catAssign (uniqueList valsAB) gHalf 0).get? t =
        some (c, sig (Fl.finite (gHalf (0 + t))))) ∧
    (catProbs valsAB gHalf).get? 0 = (catProbs valsAB gHalf).get? 2 :=
  C5_categorical_assignment valsAB gHalf 0 0 2 rfl

/-- Claim C6: with a valid b and an existing dependent column, the branch
mar and nmar take is decided by the declared dtype of the dependent column
alone: object or bool dtype always yields the categorical-assignment
branch, any other dtype the numeric z-score branch. -/
theorem C6_dtype_dispatch (d : Dataset) (m dep c : String) (b : ℝ)
    (g : ℕ → ℝ) (hb : ¬(b < 0 ∨ b > 1)) (depCol col : Column)
    (hdep : getCol d dep = some depCol) (hc : getCol d c = some col) :
    mar d m dep b g =
      (if depCol.dtype = DType.object ∨ depCol.dtype = DType.boolean then
        marLoop d m (catProbs depCol.vals g) b g 0
          ((uniqueList depCol.vals).length)
      else marLoop d m (numProbs depCol.vals) b g 0 0) ∧
    nmar d c b g =
      (if col.dtype = DType.object ∨ col.dtype = DType.boolean then
        marLoop d c (catProbs col.vals g) b g 0
          ((uniqueList col.vals).length)
      else marLoop d c (numProbs col.vals) b g 0 0) := by
  constructor
  · rw [mar, if_neg hb]
    simp only [hdep]
  · rw [nmar, if_neg hb]
    simp only [hc]

/-- Witness for C6 on a numeric and a categorical one-column dataset. -/
theorem C6_witness :
    mar dsNum "m" "a" (1 / 2) gHalf =
      (if colNum1.dtype = DType.object ∨ colNum1.dtype = DType.boolean then
        marLoop dsNum "m" (catProbs colNum1.vals gHalf) (1 / 2) gHalf 0
          ((uniqueList colNum1.vals).length)
      else marLoop dsNum "m" (numProbs colNum1.vals) (1 / 2) gHalf 0 0) ∧
    nmar dsCat "a" (1 / 2) gHalf =
      (if colCatX.dtype = DType.object ∨ colCatX.dtype = DType.boolean then
        marLoop dsCat "a" (catProbs colCatX.vals gHalf) (1 / 2) gHalf 0
          ((uniqueList colCatX.vals).length)
      else marLoop dsCat "a" (numProbs colCatX.vals) (1 / 2) gHalf 0 0) := by
  have h :=
    C6_dtype_dispatch dsNum "m" "a" "a" (1 / 2) gHalf (by norm_num)
      colNum1 colNum1 (by simp [dsNum, getCol]) (by simp [dsNum, getCol])
  have h2 :=
    C6_dtype_dispatch dsCat "m" "a" "a" (1 / 2) gHalf (by norm_num)
      colCatX colCatX (by simp [dsCat, getCol]) (by simp [dsCat, getCol])
  exact ⟨h.1, h2.2⟩

/-- The sigmoid of any float is nan or a finite number in [0, 1]. -/
theorem sig_shape (x : Fl) :
    sig x = Fl.nan ∨ ∃ q : ℝ, sig x = Fl.finite q ∧ 0 ≤ q ∧ q ≤ 1 := by
  cases x with
  | finite y =>
      right
      refine ⟨1 / (1 + Real.exp (-y)), sig_finite y, by positivity, ?_⟩
      have hd : (0 : ℝ) < 1 + Real.exp (-y) := by positivity
      rw [div_le_one hd]
      have he := Real.exp_pos (-y)
      linarith
  | inf =>
      right
      refine ⟨1, ?_, by norm_num, by norm_num⟩
      norm_num [sig, fneg, fexp, fadd, fdiv]
  | ninf =>
      right
      exact ⟨0, rfl, le_refl 0, by norm_num⟩
  | nan => left; rfl

/-- Every trial probability mar or nmar can build — a sigmoid-derived base
times b in [0, 1] — either passes the p-vector validation or is nan and
raises the nan-probability error; the not-non-negative error is
unreachable. -/
theorem marProbs_choiceCheck (depCol : Column) (g : ℕ → ℝ) (b : ℝ)
    (hb0 : 0 ≤ b) (hb1 : b ≤ 1) :
    ∀ x ∈ marProbs depCol g, ∀ pr, x = some pr →
      choiceCheck (fmul pr (Fl.finite b)) = none ∨
      choiceCheck (fmul pr (Fl.finite b)) =
        some "probabilities contain NaN" := by
  intro x hx pr hpr
  subst hpr
  have hshape : ∃ z : Fl, pr = sig z := by
    unfold marProbs at hx
    by_cases hdt : depCol.dtype = DType.object ∨ depCol.dtype = DType.boolean
    · rw [if_pos hdt] at hx
      simp only [catProbs, List.mem_map] at hx
      obtain ⟨v, hv, hxv⟩ := hx
      obtain ⟨z, hz⟩ := lookupA_catAssign_shape (uniqueList depCol.vals) g 0 v pr hxv
      exact ⟨Fl.finite z, hz⟩
    · rw [if_neg hdt] at hx
      simp only [numProbs, List.mem_map] at hx
      obtain ⟨v, hv, hxv⟩ := hx
      exact ⟨_, (Option.some.inj hxv).symm⟩
  obtain ⟨z, hz⟩ := hshape
  subst hz
  rcases sig_shape z with h | ⟨q, hq, hq0, hq1⟩
  · rw [h]
    right
    rfl
  · rw [hq]
    left
    have hqb : ¬ (q * b < 0 ∨ q * b > 1) := by
      push_neg
      refine ⟨mul_nonneg hq0 hb0, ?_⟩
      calc q * b ≤ 1 * 1 := mul_le_mul hq1 hb1 hb0 (by norm_num)
        _ = 1 := by norm_num
    simp [fmul, choiceCheck, hqb]

/-- A validated mar call whose target column is absent either raises the
KeyError at the first fired trial — before any cell has been mutated —
aborts with the nan-probability validation error of np.random.choice, or,
when no trial fires and every probability validates, returns the dataset
unchanged. -/
theorem marLoop_miss_absent {d : Dataset} {miss : String}
    {probs : List (Option Fl)} {b : ℝ} {g : ℕ → ℝ} {i k : ℕ}
    (hm : getCol d miss = none)
    (hq : ∀ x ∈ probs, ∀ pr, x = some pr →
      choiceCheck (fmul pr (Fl.finite b)) = none ∨
      choiceCheck (fmul pr (Fl.finite b)) =
        some "probabilities contain NaN") :
    marLoop d miss probs b g i k = Except.error "KeyError" ∨
    marLoop d miss probs b g i k =
      Except.error "probabilities contain NaN" ∨
    marLoop d miss probs b g i k = Except.ok d := by
  induction probs generalizing i k with
  | nil => right; right; simp [marLoop]
  | cons pr rest ih =>
      cases pr with
      | none => left; simp [marLoop]
      | some q =>
          rcases hq _ (List.mem_cons_self _ _) q rfl with hcc | hcc
          · simp only [marLoop, hcc]
            by_cases ht : trialOf b g k q = true
            · rw [if_pos ht, hm]
              left
              rfl
            · rw [if_neg ht]
              exact ih (fun x hx pr hpr => hq x (List.mem_cons_of_mem _ hx) pr hpr)
          · exact Or.inr (Or.inl (by simp [marLoop, hcc]))

/-- Claim C7 counterexample: a mar call whose target column "zz" is absent
from the dataset does not fail with a lookup error: with b = 0 no trial
fires, the target column is never accessed, and the call returns the
dataset unchanged. -/
theorem C7_counterexample :
    getCol dsCat "zz" = none ∧
    mar dsCat "zz" "a" 0 gHalf = Except.ok dsCat := by
  constructor
  · simp [dsCat, getCol, colCatX]
  · simp [mar, dsCat, getCol, colCatX, catProbs, catAssign, uniqueList,
      uniqueAux, lookupA, marLoop, choiceCheck, trialOf, fmul, sig_finite,
      flt, gHalf]
    norm_num

/-- Claim C7 (amended): with a valid tuning parameter, mcar with an absent
target column, mar with an absent dependent column, and nmar with an absent
column all fail with the lookup error before any mutation; mar with an
absent target column either fails with the lookup error at the first fired
trial — still before any cell has been mutated — aborts with the
nan-probability validation error of np.random.choice when a nan trial
probability is reached first, or returns the dataset unchanged, with no
error, when every probability validates and no trial fires. -/
theorem C7_lookup_failure (d : Dataset) (c m dep : String) (p b : ℝ)
    (g : ℕ → ℝ) (hp : ¬(p < 0 ∨ p > 1)) (hb : ¬(b < 0 ∨ b > 1)) :
    (getCol d c = none → mcar d c p g = Except.error "KeyError") ∧
    (getCol d dep = none → mar d m dep b g = Except.error "KeyError") ∧
    (getCol d c = none → nmar d c b g = Except.error "KeyError") ∧
    (getCol d m = none →
      mar d m dep b g = Except.error "KeyError" ∨
      mar d m dep b g = Except.error "probabilities contain NaN" ∨
      mar d m dep b g = Except.ok d) := by
  refine ⟨?_, ?_, ?_, ?_⟩
  · intro hc
    rw [mcar, if_neg hp]
    simp only [hc]
  · intro hdep
    rw [mar, if_neg hb]
    simp only [hdep]
  · intro hc
    rw [nmar, if_neg hb]
    simp only [hc]
  · intro hm
    cases hdep : getCol d dep with
    | none =>
        left
        rw [mar, if_neg hb]
        simp only [hdep]
    | some depCol =>
        rw [mar_eq_marLoop d m dep b g hb depCol hdep]
        have hb2 := hb
        push_neg at hb2
        exact marLoop_miss_absent hm
          (marProbs_choiceCheck depCol g b hb2.1 hb2.2)

/-- Witness for C7 (amended) on the one-column dataset with only column a:
columns "zz" and "w" are absent. -/
theorem C7_witness :
    mcar dsCat "zz" (1 / 2) gHalf = Except.error "KeyError" ∧
    mar dsCat "zz" "w" (1 / 2) gHalf = Except.error "KeyError" ∧
    nmar dsCat "zz" (1 / 2) gHalf = Except.error "KeyError" ∧
    (mar dsCat "zz" "w" (1 / 2) gHalf = Except.error "KeyError" ∨
      mar dsCat "zz" "w" (1 / 2) gHalf =
        Except.error "probabilities contain NaN" ∨
      mar dsCat "zz" "w" (1 / 2) gHalf = Except.ok dsCat) := by
  have h := C7_lookup_failure dsCat "zz" "zz" "w" (1 / 2) (1 / 2) gHalf
    (by norm_num) (by norm_num)
  have hz : getCol dsCat "zz" = none := by simp [dsCat, getCol, colCatX]
  have hw : getCol dsCat "w" = none := by simp [dsCat, getCol, colCatX]
  exact ⟨h.1 hz, h.2.1 hw, h.2.2.1 hz, h.2.2.2 hz⟩

/-- Claim C8: for every real x and every b in [0, 1], the sigmoid value is
strictly between 0 and 1, the trial probability sig(x) * b computed by the
floating point product is the finite real sig(x) * b, lies in [0, 1), and
the two branch probabilities of the Bernoulli trial sum to one, so the
trial is well-formed with no defensive clamping. -/
theorem C8_trial_wellformed (x b : ℝ) (hb0 : 0 ≤ b) (hb1 : b ≤ 1) :
    sig (Fl.finite x) = Fl.finite (1 / (1 + Real.exp (-x))) ∧
    fmul (sig (Fl.finite x)) (Fl.finite b) =
      Fl.finite (1 / (1 + Real.exp (-x)) * b) ∧
    0 < 1 / (1 + Real.exp (-x)) ∧
    1 / (1 + Real.exp (-x)) < 1 ∧
    0 ≤ 1 / (1 + Real.exp (-x)) * b ∧
    1 / (1 + Real.exp (-x)) * b < 1 ∧
    1 / (1 + Real.exp (-x)) * b + (1 - 1 / (1 + Real.exp (-x)) * b) = 1 := by
  have he : 0 < Real.exp (-x) := Real.exp_pos _
  have hd : 0 < 1 + Real.exp (-x) := by linarith
  have hs0 : 0 < 1 / (1 + Real.exp (-x)) := by positivity
  have hs1 : 1 / (1 + Real.exp (-x)) < 1 := by
    rw [div_lt_one hd]
    linarith
  have hlt : 1 / (1 + Real.exp (-x)) * b < 1 :=
    lt_of_le_of_lt
      (by simpa using mul_le_mul_of_nonneg_left hb1 (le_of_lt hs0)) hs1
  exact ⟨sig_finite x, by rw [sig_finite x]; rfl, hs0, hs1,
    mul_nonneg (le_of_lt hs0) hb0, hlt, by ring⟩

/-- Witness for C8 at x = 0, b = 1/2. -/
theorem C8_witness :
    sig (Fl.finite 0) = Fl.finite (1 / (1 + Real.exp (-0))) ∧
    fmul (sig (Fl.finite 0)) (Fl.finite (1 / 2)) =
      Fl.finite (1 / (1 + Real.exp (-0)) * (1 / 2)) ∧
    0 < 1 / (1 + Real.exp (-0)) ∧
    1 / (1 + Real.exp (-0)) < 1 ∧
    0 ≤ 1 / (1 + Real.exp (-0)) * (1 / 2) ∧
    1 / (1 + Real.exp (-0)) * (1 / 2) < 1 ∧
    1 / (1 + Real.exp (-0)) * (1 / 2) +
      (1 - 1 / (1 + Real.exp (-0)) * (1 / 2)) = 1 :=
  C8_trial_wellformed 0 (1 / 2) (by norm_num) (by norm_num)

/-- Claim C1 refutation: for the constant numeric column [5.0, 5.0], np.std
is exactly 0, the per-row z-score is the float division 0 / 0 = nan, and
each row's base probability is sig(nan) = nan — not the claimed
sig(0) = 1/2.  The code has no zero-variance fallback. -/
theorem C1_constant_column_nan :
    fstd (List.map Val.toFl [Val.num (Fl.finite 5), Val.num (Fl.finite 5)]) =
      Fl.finite 0 ∧
    numProbs [Val.num (Fl.finite 5), Val.num (Fl.finite 5)] =
      [some Fl.nan, some Fl.nan] ∧
    Fl.nan ≠ Fl.finite (1 / 2) := by
  refine ⟨?_, ?_, fun h => Fl.noConfusion h⟩
  · simp [fstd, fmean, dropna, Fl.isNaN, fsum, fsqrt, fsub, fadd, fneg,
      fdiv, fmul, Val.toFl]
  · simp [numProbs, fmean, dropna, Fl.isNaN, fsum, fstd, fsqrt, zscore,
      fsub, fadd, fneg, fdiv, fmul, Val.toFl, sig, fexp]

/-- Inversion of a successful mcar call: the parameter was in range, the
column was present, and the result is the pointwise row map. -/
theorem mcar_ok_inv {d d1 : Dataset} {c : String} {p : ℝ} {g : ℕ → ℝ}
    (h : mcar d c p g = Except.ok d1) :
    ¬(p < 0 ∨ p > 1) ∧ ∃ col, getCol d c = some col ∧
      d1 = setColVals d c (mcarVals col.vals p g 0) := by
  by_cases hp : p < 0 ∨ p > 1
  · rw [mcar, if_pos hp] at h
    cases h
  · refine ⟨hp, ?_⟩
    rw [mcar, if_neg hp] at h
    cases hcol : getCol d c with
    | none => rw [hcol] at h; simp at h
    | some col =>
        rw [hcol] at h
        simp only [Except.ok.injEq] at h
        exact ⟨col, rfl, h.symm⟩

/-- Inversion of a successful mar call. -/
theorem mar_ok_inv {d d2 : Dataset} {m dep : String} {b : ℝ} {g : ℕ → ℝ}
    (h : mar d m dep b g = Except.ok d2) :
    ¬(b < 0 ∨ b > 1) ∧ ∃ depCol, getCol d dep = some depCol ∧
      marLoop d m (marProbs depCol g) b g 0 (marStartIdx depCol) =
        Except.ok d2 := by
  by_cases hb : b < 0 ∨ b > 1
  · rw [mar, if_pos hb] at h
    cases h
  · refine ⟨hb, ?_⟩
    cases hdep : getCol d dep with
    | none => rw [mar, if_neg hb, hdep] at h; simp at h
    | some depCol =>
        refine ⟨depCol, rfl, ?_⟩
        rw [← mar_eq_marLoop d m dep b g hb depCol hdep]
        exact h

/-- Inversion of a successful nmar call. -/
theorem nmar_ok_inv {d d3 : Dataset} {c : String} {b : ℝ} {g : ℕ → ℝ}
    (h : nmar d c b g = Except.ok d3) :
    ¬(b < 0 ∨ b > 1) ∧ ∃ col, getCol d c = some col ∧
      marLoop d c (marProbs col g) b g 0 (marStartIdx col) =
        Except.ok d3 := by
  by_cases hb : b < 0 ∨ b > 1
  · rw [nmar, if_pos hb] at h
    cases h
  · refine ⟨hb, ?_⟩
    cases hcol : getCol d c with
    | none => rw [nmar, if_neg hb, hcol] at h; simp at h
    | some col =>
        refine ⟨col, rfl, ?_⟩
        rw [← nmar_eq_marLoop d c b g hb col hcol]
        exact h

/-- The row loop never clears the missing marker. -/
theorem marLoop_preservesNA {d d' : Dataset} {miss : String}
    {probs : List (Option Fl)} {b : ℝ} {g : ℕ → ℝ} {i k : ℕ}
    (h : marLoop d miss probs b g i k = Except.ok d') : preservesNA d d' := by
  intro name c hc
  obtain ⟨c', h1, _, _, h4, _⟩ := marLoop_cols h name c hc
  refine ⟨c', h1, ?_⟩
  intro j v v' hv hv' hna
  rcases h4 j with h4j | h4j
  · rw [hv', hv] at h4j
    rw [Option.some.inj h4j]
    exact hna
  · rw [hv'] at h4j
    rw [Option.some.inj h4j]
    rfl

/-- Claim C9: a successful mcar, mar or nmar call never clears the missing
marker: every cell that held it before the call still holds it after. -/
theorem C9_missing_terminal (d d1 d2 d3 : Dataset) (c m dep : String)
    (p b : ℝ) (g : ℕ → ℝ)
    (h1 : mcar d c p g = Except.ok d1)
    (h2 : mar d m dep b g = Except.ok d2)
    (h3 : nmar d c b g = Except.ok d3) :
    preservesNA d d1 ∧ preservesNA d d2 ∧ preservesNA d d3 := by
  refine ⟨?_, ?_, ?_⟩
  · obtain ⟨hp, col, hcol, hd1⟩ := mcar_ok_inv h1
    subst hd1
    intro name cn hcn
    rw [getCol_setColVals]
    by_cases hnc : name = c
    · subst hnc
      have hcc : cn = col := by
        rw [hcn] at hcol
        exact Option.some.inj hcol
      subst hcc
      rw [if_pos rfl, hcn]
      refine ⟨_, rfl, ?_⟩
      intro j v v' hv hv' hna
      have hfv : (if g (0 + j) < p then naVal else v) = v' := by
        rw [mcarVals_get, hv] at hv'
        simpa using hv'
      by_cases ht : g (0 + j) < p
      · rw [if_pos ht] at hfv
        rw [← hfv]
        rfl
      · rw [if_neg ht] at hfv
        rw [← hfv]
        exact hna
    · rw [if_neg hnc]
      refine ⟨cn, hcn, ?_⟩
      intro j v v' hv hv' hna
      rw [hv] at hv'
      rw [← Option.some.inj hv']
      exact hna
  · obtain ⟨hb, depCol, hdep, hloop⟩ := mar_ok_inv h2
    exact marLoop_preservesNA hloop
  · obtain ⟨hb, col, hcol, hloop⟩ := nmar_ok_inv h3
    exact marLoop_preservesNA hloop

/-- Witness for C9: concrete successful runs of all three mechanisms on
the one-column categorical dataset. -/
theorem C9_witness :
    preservesNA dsCat dsCat ∧ preservesNA dsCat dsCat ∧
    preservesNA dsCat dsCat := by
  have h1 : mcar dsCat "a" 0 gHalf = Except.ok dsCat := by
    simp [mcar, dsCat, getCol, colCatX, mcarVals, setColVals, gHalf]
    norm_num
  have h2 : mar dsCat "a" "a" 0 gHalf = Except.ok dsCat := by
    simp [mar, dsCat, getCol, colCatX, catProbs, catAssign, uniqueList,
      uniqueAux, lookupA, marLoop, choiceCheck, trialOf, fmul, sig_finite,
      flt, gHalf]
    norm_num
  have h3 : nmar dsCat "a" 0 gHalf = Except.ok dsCat := by
    simp [nmar, dsCat, getCol, colCatX, catProbs, catAssign, uniqueList,
      uniqueAux, lookupA, marLoop, choiceCheck, trialOf, fmul, sig_finite,
      flt, gHalf]
    norm_num
  exact C9_missing_terminal dsCat dsCat dsCat dsCat "a" "a" "a" 0 0 gHalf
    h1 h2 h3

/-- In a dataset with distinct column names, every entry is found by
getCol under its own name. -/
theorem getCol_of_mem (d : Dataset) (e : String × Column)
    (hnd : (d.map Prod.fst).Nodup) (he : e ∈ d) : getCol d e.1 = some e.2 := by
  induction d with
  | nil => cases he
  | cons f rest ih =>
      simp only [List.map_cons, List.nodup_cons] at hnd
      rcases List.mem_cons.mp he with h | h
      · subst h
        simp [getCol]
      · have h1 : e.1 ∈ rest.map Prod.fst := List.mem_map_of_mem Prod.fst h
        have hne : ¬ f.1 = e.1 := fun hc => hnd.1 (hc ▸ h1)
        cases f with
        | mk n c0 => simp [getCol, hne, ih hnd.2 h]

/-- Replacing a column's values by a list of the same length preserves the
dataset's shape. -/
theorem shapeEq_setColVals (d : Dataset) (name : String) (vs : List Val)
    (h : ∀ e ∈ d, e.1 = name → e.2.vals.length = vs.length) :
    shapeEq d (setColVals d name vs) := by
  induction d with
  | nil => rfl
  | cons e rest ih =>
      have ihr := ih (fun x hx hxn => h x (List.mem_cons_of_mem _ hx) hxn)
      by_cases he : e.1 = name
      · have hlen := h e (List.mem_cons_self _ _) he
        simp only [shapeEq, shapeOf, setColVals, if_pos he, List.map_cons]
          at ihr ⊢
        rw [hlen]
        exact congrArg _ ihr
      · simp only [shapeEq, shapeOf, setColVals, if_neg he, List.map_cons]
          at ihr ⊢
        exact congrArg _ ihr

/-- Claim C10: a successful mcar, mar or nmar call preserves the dataset's
column set, dtypes and row counts, leaves every column other than the
target untouched, and inside the target column every row whose Bernoulli
trial did not fire keeps its original value. -/
theorem C10_frame (d d1 d2 d3 : Dataset) (c m dep : String) (p b : ℝ)
    (g : ℕ → ℝ) (hnd : (d.map Prod.fst).Nodup)
    (h1 : mcar d c p g = Except.ok d1)
    (h2 : mar d m dep b g = Except.ok d2)
    (h3 : nmar d c b g = Except.ok d3) :
    (shapeEq d d1 ∧ (∀ name, name ≠ c → getCol d1 name = getCol d name) ∧
      ∀ col col', getCol d c = some col → getCol d1 c = some col' →
        ∀ j, ¬ g j < p → col'.vals.get? j = col.vals.get? j) ∧
    (shapeEq d d2 ∧ (∀ name, name ≠ m → getCol d2 name = getCol d name) ∧
      ∀ depCol col col', getCol d dep = some depCol →
        getCol d m = some col → getCol d2 m = some col' →
        ∀ j pr, (marProbs depCol g).get? j = some (some pr) →
          trialOf b g (marStartIdx depCol + j) pr = false →
          col'.vals.get? j = col.vals.get? j) ∧
    (shapeEq d d3 ∧ (∀ name, name ≠ c → getCol d3 name = getCol d name) ∧
      ∀ col0 col col', getCol d c = some col0 → getCol d c = some col →
        getCol d3 c = some col' →
        ∀ j pr, (marProbs col0 g).get? j = some (some pr) →
          trialOf b g (marStartIdx col0 + j) pr = false →
          col'.vals.get? j = col.vals.get? j) := by
  refine ⟨?_, ?_, ?_⟩
  · obtain ⟨hp, col, hcol, hd1⟩ := mcar_ok_inv h1
    subst hd1
    refine ⟨?_, ?_, ?_⟩
    · refine shapeEq_setColVals d c _ (fun e he hec => ?_)
      have h5 := getCol_of_mem d e hnd he
      rw [hec, hcol] at h5
      rw [Option.some.inj h5, mcarVals_length]
    · intro name hne
      rw [getCol_setColVals, if_neg hne]
    · intro col0 col' hcol0 hcol'
      have hc0 : col0 = col := by
        rw [hcol0] at hcol
        exact Option.some.inj hcol
      subst hc0
      rw [getCol_setColVals, if_pos rfl, hcol0] at hcol'
      have hcv : col' = Column.mk col0.dtype (mcarVals col0.vals p g 0) :=
        (Option.some.inj hcol').symm
      subst hcv
      intro j ht
      rw [mcarVals_get]
      rw [Nat.zero_add]
      cases hvj : col0.vals.get? j with
      | none => rfl
      | some v => simp [ht]
  · obtain ⟨hb, depCol, hdep, hloop⟩ := mar_ok_inv h2
    refine ⟨marLoop_shape hloop, fun name hne => marLoop_other hloop name hne,
      ?_⟩
    intro depCol0 col col' hdep0 hcol hcol'
    have hdc : depCol0 = depCol := by
      rw [hdep0] at hdep
      exact Option.some.inj hdep
    subst hdc
    obtain ⟨c', h5, _, _, _, hkeep⟩ := marLoop_cols hloop m col hcol
    have hcc : col' = c' := by
      rw [h5] at hcol'
      exact (Option.some.inj hcol').symm
    subst hcc
    intro j pr hpr htr
    refine hkeep j (fun t pr' hjt hpt => ?_)
    have htj : t = j := by omega
    subst htj
    rw [hpr] at hpt
    have hpp : pr' = pr := by
      have := Option.some.inj hpt
      exact (Option.some.inj this).symm
    subst hpp
    exact htr
  · obtain ⟨hb, col1, hcol1, hloop⟩ := nmar_ok_inv h3
    refine ⟨marLoop_shape hloop, fun name hne => marLoop_other hloop name hne,
      ?_⟩
    intro col0 col col' hcol0 hcol hcol'
    have hdc : col0 = col1 := by
      rw [hcol0] at hcol1
      exact Option.some.inj hcol1
    subst hdc
    obtain ⟨c', h5, _, _, _, hkeep⟩ := marLoop_cols hloop c col hcol
    have hcc : col' = c' := by
      rw [h5] at hcol'
      exact (Option.some.inj hcol').symm
    subst hcc
    intro j pr hpr htr
    refine hkeep j (fun t pr' hjt hpt => ?_)
    have htj : t = j := by omega
    subst htj
    rw [hpr] at hpt
    have hpp : pr' = pr := by
      have := Option.some.inj hpt
      exact (Option.some.inj this).symm
    subst hpp
    exact htr

/-- Witness for C10: a concrete successful run of all three mechanisms on
the one-column categorical dataset. -/
theorem C10_witness :
    (shapeEq dsCat dsCat ∧
      (∀ name, name ≠ "a" → getCol dsCat name = getCol dsCat name) ∧
      ∀ col col', getCol dsCat "a" = some col →
        getCol dsCat "a" = some col' →
        ∀ j, ¬ gHalf j < 0 → col'.vals.get? j = col.vals.get? j) ∧
    (shapeEq dsCat dsCat ∧
      (∀ name, name ≠ "a" → getCol dsCat name = getCol dsCat name) ∧
      ∀ depCol col col', getCol dsCat "a" = some depCol →
        getCol dsCat "a" = some col → getCol dsCat "a" = some col' →
        ∀ j pr, (marProbs depCol gHalf).get? j = some (some pr) →
          trialOf 0 gHalf (marStartIdx depCol + j) pr = false →
          col'.vals.get? j = col.vals.get? j) ∧
    (shapeEq dsCat dsCat ∧
      (∀ name, name ≠ "a" → getCol dsCat name = getCol dsCat name) ∧
      ∀ col0 col col', getCol dsCat "a" = some col0 →
        getCol dsCat "a" = some col → getCol dsCat "a" = some col' →
        ∀ j pr, (marProbs col0 gHalf).get? j = some (some pr) →
          trialOf 0 gHalf (marStartIdx col0 + j) pr = false →
          col'.vals.get? j = col.vals.get? j) := by
  have h1 : mcar dsCat "a" 0 gHalf = Except.ok dsCat := by
    simp [mcar, dsCat, getCol, colCatX, mcarVals, setColVals, gHalf]
    norm_num
  have h2 : mar dsCat "a" "a" 0 gHalf = Except.ok dsCat := by
    simp [mar, dsCat, getCol, colCatX, catProbs, catAssign, uniqueList,
      uniqueAux, lookupA, marLoop, choiceCheck, trialOf, fmul, sig_finite,
      flt, gHalf]
    norm_num
  have h3 : nmar dsCat "a" 0 gHalf = Except.ok dsCat := by
    simp [nmar, dsCat, getCol, colCatX, catProbs, catAssign, uniqueList,
      uniqueAux, lookupA, marLoop, choiceCheck, trialOf, fmul, sig_finite,
      flt, gHalf]
    norm_num
  exact C10_frame dsCat dsCat dsCat dsCat "a" "a" "a" 0 0 gHalf
    (by simp [dsCat]) h1 h2 h3

end MissGen
